import Mathlib

/-!
Shallow embedding of the PG observer library (observer.h): subjects hold an
ordered, non-owning dispatch sequence of observer handles; an observer_owner
holds the owning set of handles; destruction of either side notifies the other.
Handles are identified by allocation order (a Nat), standing in for the C++
object address.  Two views of the code are developed:

* `Dispatch`: the callback-execution view (subject::notify, add_observer,
  remove_observer, observer_owner::connect / disconnect, subject_blocker,
  pg_detail::get_first_n), with callbacks embedded as state transformers.
* `Registry`: the registration/lifetime view (connect, disconnect, notify,
  subject and owner destructors, subject_blocker) as a small-step system on a
  world of live subjects, owners and handles, with a ghost log of handle
  destructions.
-/

set_option autoImplicit false

namespace PGObserver

universe u v

/-- Embedding of the find-then-erase idiom used by `subject::remove_observer`
and `std::set::erase(find(x))`: remove the first element satisfying `p`;
when no element matches, the list is unchanged (the not-found branch of the
source performs no erase). -/
def eraseFirstWith {β : Type u} (p : β → Bool) : List β → List β
  | [] => []
  | x :: xs => if p x then xs else x :: eraseFirstWith p xs

theorem eraseFirstWith_sublist {β : Type u} (p : β → Bool) (l : List β) :
    (eraseFirstWith p l).Sublist l := by
  induction l with
  | nil => simp [eraseFirstWith]
  | cons x xs ih =>
    by_cases hx : p x
    · simp [eraseFirstWith, hx]
    · simpa [eraseFirstWith, hx] using ih.cons₂ x

theorem mem_of_mem_eraseFirstWith {β : Type u} {p : β → Bool} {l : List β} {x : β}
    (h : x ∈ eraseFirstWith p l) : x ∈ l :=
  (eraseFirstWith_sublist p l).subset h

theorem eraseFirstWith_of_forall_not {β : Type u} {p : β → Bool} {l : List β}
    (h : ∀ x ∈ l, ¬ p x = true) : eraseFirstWith p l = l := by
  induction l with
  | nil => rfl
  | cons x xs ih =>
    have hx : ¬ p x = true := h x (by simp)
    simp only [eraseFirstWith, if_neg hx]
    rw [ih fun y hy => h y (by simp [hy])]

theorem mem_eraseFirstWith_of_not {β : Type u} {p : β → Bool} {l : List β} {x : β}
    (hx : x ∈ l) (hpx : ¬ p x = true) : x ∈ eraseFirstWith p l := by
  induction l with
  | nil => simp at hx
  | cons y ys ih =>
    by_cases hy : p y
    · rcases List.mem_cons.mp hx with rfl | hx'
      · exact absurd hy hpx
      · simpa [eraseFirstWith, hy] using hx'
    · rcases List.mem_cons.mp hx with rfl | hx'
      · simp [eraseFirstWith, hy]
      · simp [eraseFirstWith, hy, ih hx']

/-- Characterization of the erase-first-match step: when some element matches,
exactly the first matching element is removed and the relative order of the
rest is preserved. -/
theorem eraseFirstWith_spec {β : Type u} {p : β → Bool} {l : List β}
    (h : ∃ x ∈ l, p x = true) :
    ∃ l₁ x l₂, l = l₁ ++ x :: l₂ ∧ p x = true ∧ (∀ y ∈ l₁, ¬ p y = true) ∧
      eraseFirstWith p l = l₁ ++ l₂ := by
  induction l with
  | nil => simp at h
  | cons a t ih =>
    by_cases ha : p a
    · exact ⟨[], a, t, by simp, ha, by simp, by simp [eraseFirstWith, ha]⟩
    · have h' : ∃ x ∈ t, p x = true := by
        rcases h with ⟨x, hx, hpx⟩
        rcases List.mem_cons.mp hx with rfl | hx'
        · exact absurd hpx ha
        · exact ⟨x, hx', hpx⟩
      rcases ih h' with ⟨l₁, x, l₂, rfl, hpx, hl₁, hE⟩
      exact ⟨a :: l₁, x, l₂, by simp, hpx,
        by intro y hy; rcases List.mem_cons.mp hy with rfl | hy'
           · exact ha
           · exact hl₁ y hy',
        by simp [eraseFirstWith, ha, hE]⟩

/-- When the mapped keys of a list are pairwise distinct, erasing the first
element with a given key is the same as filtering that key out. -/
theorem eraseFirstWith_key_eq_filter {β : Type u} (k : β → Nat) {l : List β}
    (hnd : (l.map k).Nodup) (i : Nat) :
    eraseFirstWith (fun e => k e == i) l = l.filter (fun e => k e != i) := by
  induction l with
  | nil => rfl
  | cons a t ih =>
    simp only [List.map_cons, List.nodup_cons] at hnd
    by_cases ha : k a = i
    · have hall : ∀ b ∈ t, (k b != i) = true := by
        intro b hb
        have hne : k b ≠ i := by
          intro hbi
          exact hnd.1 (by rw [← ha, ← hbi] at *; exact List.mem_map_of_mem k hb)
        simpa using hne
      simp [eraseFirstWith, ha, List.filter_cons, List.filter_eq_self.mpr hall]
    · have ha' : (k a != i) = true := by simpa using ha
      simp [eraseFirstWith, ha, List.filter_cons, ha', ih hnd.2]

namespace Dispatch

/-- Callback shape: a C++ observer's notify body, embedded as a state
transformer receiving the published arguments `α` and mutating external
state `σ` (the captured environment of the callable). -/
def Cb (α : Type u) (σ : Type v) : Type (max u v) := α → σ → σ

/-- Embedding of `pg::subject`: the ordered dispatch sequence `m_observers`.
Each entry pairs the handle identity (C++ object address, here the allocation
index) with its notify callback. -/
structure Subject (α : Type u) (σ : Type v) where
  m_observers : List (Nat × Cb α σ)

variable {α : Type u} {σ : Type v}

/-- Handle identities currently in the dispatch sequence. -/
def Subject.ids (s : Subject α σ) : List Nat :=
  s.m_observers.map (fun ob => ob.1)

/-- Embedding of `subject::notify`: invoke each registered observer in
sequence order with the published arguments. -/
def Subject.notify (s : Subject α σ) (a : α) (st : σ) : σ :=
  s.m_observers.foldl (fun acc ob => ob.2 a acc) st

/-- Embedding of `subject::add_observer`: push_back onto `m_observers`. -/
def Subject.add_observer (s : Subject α σ) (ob : Nat × Cb α σ) : Subject α σ :=
  ⟨s.m_observers ++ [ob]⟩

/-- Embedding of `subject::remove_observer`: search `m_observers` from the
reversed (most recently added) end for the handle, erase the found element,
and do nothing when it is absent. -/
def Subject.remove_observer (s : Subject α σ) (hid : Nat) : Subject α σ :=
  ⟨(eraseFirstWith (fun ob => ob.1 == hid) s.m_observers.reverse).reverse⟩

/-- One `observer_owner` together with one subject it connects observers to:
the owner's ownership set `owned` (the `std::set` of `unique_ptr`s, abstracted
to the list of owned handle identities in allocation order) and the allocation
counter standing in for `make_unique`'s address generation. -/
structure OwnerSubject (α : Type u) (σ : Type v) where
  subj : Subject α σ
  owned : List Nat
  fresh : Nat

/-- Embedding of `observer_owner::connect`: allocate the observer, register it
with the subject via `add_observer`, insert it into the owner's set, and
return the raw handle. -/
def connect (w : OwnerSubject α σ) (cb : Cb α σ) : OwnerSubject α σ × Nat :=
  (⟨w.subj.add_observer (w.fresh, cb), w.owned ++ [w.fresh], w.fresh + 1⟩, w.fresh)

/-- Embedding of `observer_owner::disconnect`: `remove_from_subject` (the
subject-side erase) followed by `observer_owner::remove_observer` (erasing the
owning entry, which frees the handle). -/
def disconnect (w : OwnerSubject α σ) (hid : Nat) : OwnerSubject α σ :=
  ⟨w.subj.remove_observer hid, eraseFirstWith (fun h => h == hid) w.owned, w.fresh⟩

/-- An owner with no connections yet. -/
def emptyOS : OwnerSubject α σ := ⟨⟨[]⟩, [], 0⟩

/-- Sequence of `connect` calls for a list of callbacks, oldest first. -/
def connectAll (cbs : List (Cb α σ)) : OwnerSubject α σ :=
  cbs.foldl (fun w cb => (connect w cb).1) emptyOS

/-- Instrumented callback that appends its handle tag and received argument
to a log, used to observe dispatch order and multiplicity. -/
def logCb (i : Nat) : Cb α (List (Nat × α)) :=
  fun a st => st ++ [(i, a)]

/-- Embedding of `pg::subject_blocker`: the constructor swaps the subject's
dispatch sequence with the blocker's default-constructed (empty) one,
returning the blocker and the blocked subject. -/
def blocker_ctor (s : Subject α σ) : Subject α σ × Subject α σ :=
  (⟨s.m_observers⟩, ⟨[]⟩)

/-- Embedding of `subject_blocker::~subject_blocker`: swap back, so the
subject receives the saved sequence; whatever the subject accumulated during
the block is left in the dying blocker and discarded. -/
def blocker_dtor (b : Subject α σ) (_s : Subject α σ) : Subject α σ :=
  ⟨b.m_observers⟩

/-- Embedding of the subject-to-subject overload of `observer_owner::connect`
(line 270): the lambda capturing `s2` that forwards the received arguments
into `s2.notify`. -/
def relay_target (s2 : Subject α σ) : Cb α σ :=
  fun a st => s2.notify a st

/-- Embedding of the relay overload itself: `connect(s1, s2)` calls the
callable overload on the forwarding lambda. -/
def connect_subjects (w : OwnerSubject α σ) (s2 : Subject α σ) :
    OwnerSubject α σ × Nat :=
  connect w (relay_target s2)

/-- Stated from the specification text for the refinement comparison: a
callback that forwards its received arguments verbatim into
`subjectB.notify`; `connect(subjectA, subjectB)` is specified as sugar for
connecting this callback. -/
def spec_relay_target (s2 : Subject α σ) : Cb α σ :=
  fun a st => Subject.notify s2 a st

theorem Subject.notify_append {α : Type u} {σ : Type v}
    (l : List (Nat × Cb α σ)) (ob : Nat × Cb α σ) (a : α) (st : σ) :
    Subject.notify ⟨l ++ [ob]⟩ a st = ob.2 a (Subject.notify ⟨l⟩ a st) := by
  simp [Subject.notify]

theorem connectAll_append_singleton {α : Type u} {σ : Type v}
    (cbs : List (Cb α σ)) (cb : Cb α σ) :
    connectAll (cbs ++ [cb]) = (connect (connectAll cbs) cb).1 := by
  simp [connectAll]

theorem connectAll_fresh_owned_ids {α : Type u} {σ : Type v} (cbs : List (Cb α σ)) :
    (connectAll cbs).fresh = cbs.length ∧
      (connectAll cbs).owned = List.range cbs.length ∧
      (connectAll cbs).subj.ids = List.range cbs.length := by
  induction cbs using List.reverseRecOn with
  | nil => exact ⟨rfl, rfl, rfl⟩
  | append_singleton cbs cb ih =>
    rcases ih with ⟨hf, ho, hi⟩
    refine ⟨?_, ?_, ?_⟩
    · simp [connectAll_append_singleton, connect, hf]
    · simp [connectAll_append_singleton, connect, hf, ho, List.range_succ]
    · simp [connectAll_append_singleton, connect, Subject.add_observer,
        Subject.ids, hf, List.range_succ]
      simpa [Subject.ids] using hi

theorem connectAll_notify {α : Type u} {σ : Type v}
    (cbs : List (Cb α σ)) (a : α) (st : σ) :
    (connectAll cbs).subj.notify a st = cbs.foldl (fun acc cb => cb a acc) st := by
  induction cbs using List.reverseRecOn with
  | nil => rfl
  | append_singleton cbs cb ih =>
    rw [connectAll_append_singleton]
    show Subject.notify ⟨(connectAll cbs).subj.m_observers ++
      [((connectAll cbs).fresh, cb)]⟩ a st = _
    rw [Subject.notify_append, ih]
    simp

theorem foldl_logCb {α : Type u} (js : List Nat) (a : α) (st : List (Nat × α)) :
    (js.map logCb).foldl (fun acc cb => cb a acc) st = st ++ js.map (fun j => (j, a)) := by
  induction js generalizing st with
  | nil => simp
  | cons j js ih => simp [logCb, ih]

/-- The instrumented world: `n` connects of tagged logging callbacks. -/
def logWorld {α : Type u} (n : Nat) : OwnerSubject α (List (Nat × α)) :=
  connectAll ((List.range n).map logCb)

theorem logWorld_obs {α : Type u} (n : Nat) :
    (logWorld (α := α) n).subj.m_observers =
      (List.range n).map (fun j => (j, logCb j)) := by
  induction n with
  | zero => rfl
  | succ n ih =>
    have hfresh : (logWorld (α := α) n).fresh = n := by
      simpa [logWorld] using (connectAll_fresh_owned_ids ((List.range n).map logCb)).1
    have hstep : logWorld (α := α) (n + 1) = (connect (logWorld n) (logCb n)).1 := by
      rw [logWorld, List.range_succ, List.map_append]
      simpa using connectAll_append_singleton ((List.range n).map (logCb (α := α))) (logCb n)
    rw [hstep]
    simp [connect, Subject.add_observer, ih, hfresh, List.range_succ]

theorem map_fst_map_pair {α : Type u} (js : List Nat)
    (f : Nat → Cb α (List (Nat × α))) :
    ((js.map (fun j => (j, f j))).map (fun ob => ob.1)) = js := by
  induction js with
  | nil => rfl
  | cons j js ih => simp only [List.map_cons, ih]

/-- With pairwise-distinct handle identities, the backward-searching erase of
`subject::remove_observer` removes every trace of the handle: it equals a
filter of the dispatch sequence. -/
theorem remove_observer_eq_filter {α : Type u} {σ : Type v}
    (s : Subject α σ) (hid : Nat) (hnd : s.ids.Nodup) :
    s.remove_observer hid = ⟨s.m_observers.filter (fun ob => ob.1 != hid)⟩ := by
  have hnd' : (s.m_observers.reverse.map (fun ob => ob.1)).Nodup := by
    rw [List.map_reverse, List.nodup_reverse]
    exact hnd
  have h := eraseFirstWith_key_eq_filter (fun ob : Nat × Cb α σ => ob.1) hnd' hid
  rw [Subject.remove_observer]
  rw [show (fun ob : Nat × Cb α σ => ob.1 == hid) =
        (fun ob : Nat × Cb α σ => (fun x : Nat × Cb α σ => x.1) ob == hid) from rfl]
  rw [h, ← List.filter_reverse, List.reverse_reverse]

theorem filter_map_pair {α : Type u} (js : List Nat) (i : Nat)
    (f : Nat → Cb α (List (Nat × α))) :
    (js.map (fun j => (j, f j))).filter (fun ob => ob.1 != i) =
      (js.filter (fun j => j != i)).map (fun j => (j, f j)) := by
  induction js with
  | nil => rfl
  | cons j js ih =>
    by_cases hj : j = i
    · simp [hj, ih]
    · have : (j != i) = true := by simpa using hj
      simp [List.filter_cons, this, ih]

theorem notify_map_logCb {α : Type u} (js : List Nat) (a : α) (st : List (Nat × α)) :
    Subject.notify ⟨js.map (fun j => (j, logCb j))⟩ a st = st ++ js.map (fun j => (j, a)) := by
  induction js generalizing st with
  | nil => simp [Subject.notify]
  | cons j js ih =>
    show Subject.notify ⟨(j, logCb j) :: js.map (fun j => (j, logCb j))⟩ a st = _
    rw [Subject.notify]
    simp only [List.foldl_cons]
    have := ih (logCb j a st)
    rw [Subject.notify] at this
    rw [this]
    simp [logCb]

/-- Embedding of `pg_detail::get_first`: builds the tuple of the leading
elements of `t`.  The C++ template parameter `N` counts indices down to the
base case `N = -1`; here the parameter is shifted by one, so `get_first d t n`
is the C++ `get_first<n-1>` and returns the first `n` elements.  Tuples are
embedded as lists over one element type with `d` as the (unreachable under the
static assert) out-of-range default. -/
def get_first {ν : Type u} (d : ν) (t : List ν) : Nat → List ν
  | 0 => []
  | n + 1 => get_first d t n ++ [t.getD n d]

/-- Embedding of `pg_detail::get_first_n`: take the leading `n` arguments. -/
def get_first_n {ν : Type u} (d : ν) (n : Nat) (t : List ν) : List ν :=
  get_first d t n

/-- Embedding of the bind-time check `static_assert( N <= sizeof...( args ) )`
in `get_first_n`: a target whose declared arity exceeds the number of
arguments the subject publishes fails this check and is rejected. -/
def arity_ok (arity published : Nat) : Prop :=
  arity ≤ published

instance (arity published : Nat) : Decidable (arity_ok arity published) :=
  Nat.decLe arity published

/-- Embedding of the `notify` override of the callable-adapter observer
(line 261): apply the target to the leading `arity` arguments produced by
`get_first_n`. -/
def adapter_notify {ν : Type u} {σ : Type v} (f : List ν → σ → σ) (arity : Nat)
    (d : ν) : Cb (List ν) σ :=
  fun args st => f (get_first_n d arity args) st

end Dispatch

namespace Registry

/-- Registration/lifetime state of the whole system.

* `subjects`: each live `pg::subject`, as its identity paired with its
  `m_observers` dispatch sequence of handle identities;
* `owners`: identities of the live `observer_owner`s;
* `handles`: the live observer handles `(handle, owner, subject)` — an entry
  exists exactly while the owning `std::set` holds the handle's `unique_ptr`,
  and records the handle's `m_owner` and `m_subject` back-references;
* `blockers`: each live `subject_blocker`, as its identity, its subject, and
  the dispatch sequence it swapped out at construction;
* `fresh` / `bfresh`: allocation counters standing in for object addresses;
* `freed`: ghost log of handle destructions, in destruction order. -/
structure World where
  subjects : List (Nat × List Nat)
  owners : List Nat
  handles : List (Nat × Nat × Nat)
  blockers : List (Nat × Nat × List Nat)
  fresh : Nat
  bfresh : Nat
  freed : List Nat
deriving DecidableEq

/-- Identities of the live subjects. -/
def keys (ss : List (Nat × List Nat)) : List Nat :=
  ss.map (fun p => p.1)

/-- Dispatch sequence of subject `sid` (empty when `sid` is not alive). -/
def dispatchOf (w : World) (sid : Nat) : List Nat :=
  match w.subjects.find? (fun p => p.1 == sid) with
  | some p => p.2
  | none => []

/-- Identities of the live handles. -/
def hids (w : World) : List Nat :=
  w.handles.map (fun e => e.1)

/-- Ownership set of owner `oid`: the handles whose `m_owner` is `oid` and
whose `unique_ptr` is still held. -/
def ownedBy (w : World) (oid : Nat) : List Nat :=
  (w.handles.filter (fun e => e.2.1 == oid)).map (fun e => e.1)

/-- Look up a live handle's record (its back-references). -/
def lookupHandle (w : World) (hid : Nat) : Option (Nat × Nat × Nat) :=
  w.handles.find? (fun e => e.1 == hid)

/-- Apply `f` to the dispatch sequence of subject `sid`. -/
def updateDispatch (ss : List (Nat × List Nat)) (sid : Nat)
    (f : List Nat → List Nat) : List (Nat × List Nat) :=
  ss.map (fun p => if p.1 = sid then (p.1, f p.2) else p)

/-- Embedding of `subject::remove_observer` on the sequence of handle
identities: search backward from the most recently added end, erase the found
element, no-op when absent. -/
def subjectRemove (l : List Nat) (hid : Nat) : List Nat :=
  (eraseFirstWith (fun x => x == hid) l.reverse).reverse

/-- Embedding of `abstract_observer::remove_from_subject`: ask the handle's
subject (its `m_subject` back-reference) to `remove_observer` it. -/
def removeFromSubject (w : World) (hid : Nat) : World :=
  match lookupHandle w hid with
  | some e => { w with subjects := updateDispatch w.subjects e.2.2 (fun l => subjectRemove l hid) }
  | none => w

/-- Embedding of `observer_owner::connect` (the private overload all public
overloads funnel into): register the new handle with the subject via
`add_observer`, insert it into the owner's set, return it. -/
def connectW (w : World) (oid sid : Nat) : World × Nat :=
  ({ w with
      subjects := updateDispatch w.subjects sid (fun l => l ++ [w.fresh]),
      handles := w.handles ++ [(w.fresh, oid, sid)],
      fresh := w.fresh + 1 }, w.fresh)

/-- Embedding of `observer_owner::disconnect`: `remove_from_subject`, then
`observer_owner::remove_observer`, whose `std::set` erase destroys the
handle. -/
def disconnectW (w : World) (hid : Nat) : World :=
  let w' := removeFromSubject w hid
  { w' with
      handles := eraseFirstWith (fun e => e.1 == hid) w'.handles,
      freed := w'.freed ++ [hid] }

/-- Embedding of `observer_owner::~observer_owner`: call
`remove_from_subject` on every owned handle, then release the ownership set,
destroying every owned handle. -/
def destroyOwnerW (w : World) (oid : Nat) : World :=
  let owned := ownedBy w oid
  let w' := owned.foldl removeFromSubject w
  { w' with
      handles := w'.handles.filter (fun e => e.2.1 != oid),
      owners := eraseFirstWith (fun o => o == oid) w'.owners,
      freed := w'.freed ++ owned }

/-- Embedding of `subject::~subject`: call `remove_from_owner` on every handle
still in the dispatch sequence — each such call erases the handle from its
owner's set, destroying it — then the subject itself goes away. -/
def destroySubjectW (w : World) (sid : Nat) : World :=
  let l := dispatchOf w sid
  { w with
      subjects := w.subjects.filter (fun p => p.1 != sid),
      handles := l.foldl (fun hs h => eraseFirstWith (fun e => e.1 == h) hs) w.handles,
      freed := w.freed ++ l }

/-- Embedding of `subject_blocker::subject_blocker`: swap the subject's
dispatch sequence with the blocker's default-constructed empty one. -/
def blockW (w : World) (sid : Nat) : World :=
  { w with
      subjects := updateDispatch w.subjects sid (fun _ => []),
      blockers := (w.bfresh, sid, dispatchOf w sid) :: w.blockers,
      bfresh := w.bfresh + 1 }

/-- Embedding of `subject_blocker::~subject_blocker`: swap back, so the
subject's dispatch sequence becomes the saved one; the sequence the subject
accumulated during the block dies with the blocker. -/
def unblockW (w : World) (bid : Nat) : World :=
  match w.blockers.find? (fun b => b.1 == bid) with
  | some b =>
      { w with
          subjects := updateDispatch w.subjects b.2.1 (fun _ => b.2.2),
          blockers := eraseFirstWith (fun b' => b'.1 == bid) w.blockers }
  | none => w

/-- A starting world: the given owners and subjects exist, no connection has
been made yet. -/
def World.init (os ss : List Nat) : World :=
  ⟨ss.map (fun s => (s, [])), os, [], [], 0, 0, []⟩

/-- One defined-behavior step through the public interface.  The hypotheses
of each constructor are the preconditions under which the C++ call is free of
undefined behavior: handles passed to `disconnect` are live and their subject
is alive; destructors only follow back-references that are still valid;
`notify` does not run over a dispatch sequence holding destroyed handles. -/
inductive Step : World → World → Prop
  | connect (w : World) (oid sid : Nat)
      (ho : oid ∈ w.owners) (hs : sid ∈ keys w.subjects) :
      Step w (connectW w oid sid).1
  | disconnect (w : World) (hid : Nat) (e : Nat × Nat × Nat)
      (he : lookupHandle w hid = some e) (hs : e.2.2 ∈ keys w.subjects) :
      Step w (disconnectW w hid)
  | notify (w : World) (sid : Nat) (hs : sid ∈ keys w.subjects)
      (hl : ∀ h ∈ dispatchOf w sid, h ∈ hids w) :
      Step w w
  | destroyOwner (w : World) (oid : Nat) (ho : oid ∈ w.owners)
      (hs : ∀ e ∈ w.handles, e.2.1 = oid → e.2.2 ∈ keys w.subjects) :
      Step w (destroyOwnerW w oid)
  | destroySubject (w : World) (sid : Nat) (hs : sid ∈ keys w.subjects)
      (hl : ∀ h ∈ dispatchOf w sid, h ∈ hids w) :
      Step w (destroySubjectW w sid)
  | block (w : World) (sid : Nat) (hs : sid ∈ keys w.subjects) :
      Step w (blockW w sid)
  | unblock (w : World) (bid : Nat) (b : Nat × Nat × List Nat)
      (hb : w.blockers.find? (fun b' => b'.1 == bid) = some b)
      (hs : b.2.1 ∈ keys w.subjects) :
      Step w (unblockW w bid)

/-- Defined-behavior steps in which no handle-destroying operation
(`disconnect`, `~observer_owner`, `~subject`) runs while a `subject_blocker`
is alive. -/
inductive SafeStep : World → World → Prop
  | connect (w : World) (oid sid : Nat)
      (ho : oid ∈ w.owners) (hs : sid ∈ keys w.subjects) :
      SafeStep w (connectW w oid sid).1
  | disconnect (w : World) (hid : Nat) (e : Nat × Nat × Nat)
      (he : lookupHandle w hid = some e) (hs : e.2.2 ∈ keys w.subjects)
      (hnb : w.blockers = []) :
      SafeStep w (disconnectW w hid)
  | notify (w : World) (sid : Nat) (hs : sid ∈ keys w.subjects)
      (hl : ∀ h ∈ dispatchOf w sid, h ∈ hids w) :
      SafeStep w w
  | destroyOwner (w : World) (oid : Nat) (ho : oid ∈ w.owners)
      (hs : ∀ e ∈ w.handles, e.2.1 = oid → e.2.2 ∈ keys w.subjects)
      (hnb : w.blockers = []) :
      SafeStep w (destroyOwnerW w oid)
  | destroySubject (w : World) (sid : Nat) (hs : sid ∈ keys w.subjects)
      (hl : ∀ h ∈ dispatchOf w sid, h ∈ hids w)
      (hnb : w.blockers = []) :
      SafeStep w (destroySubjectW w sid)
  | block (w : World) (sid : Nat) (hs : sid ∈ keys w.subjects) :
      SafeStep w (blockW w sid)
  | unblock (w : World) (bid : Nat) (b : Nat × Nat × List Nat)
      (hb : w.blockers.find? (fun b' => b'.1 == bid) = some b)
      (hs : b.2.1 ∈ keys w.subjects) :
      SafeStep w (unblockW w bid)

/-- Reachability through defined-behavior uses of the public interface. -/
def Reachable : World → World → Prop :=
  Relation.ReflTransGen Step

/-- Reachability when no destruction happens during a block. -/
def SafeReachable : World → World → Prop :=
  Relation.ReflTransGen SafeStep

/-- The claimed invariant: no live subject's dispatch sequence contains a
handle absent from every owner's ownership set. -/
def Inv (w : World) : Prop :=
  ∀ p ∈ w.subjects, ∀ h ∈ p.2, ∃ oid, h ∈ ownedBy w oid

end Registry

namespace Dispatch

theorem get_first_take {ν : Type u} (d : ν) (t : List ν) (n : Nat)
    (h : n ≤ t.length) : get_first d t n = t.take n := by
  induction n with
  | zero => simp [get_first]
  | succ n ih =>
    have hn : n < t.length := h
    rw [get_first, ih (le_of_lt hn), List.take_succ]
    have h' : t[n]? = some (t.get ⟨n, hn⟩) := by
      simp [List.getElem?_eq_getElem hn]
    simp [List.getD_eq_getElem?_getD, h']

/-- The end-to-end scenario's callback: append the received value to a log. -/
def pushCb : Cb Nat (List Nat) :=
  fun x st => st ++ [x]

/-- End-to-end scenario, step 1: connect the logging callback. -/
def e2eW1 : OwnerSubject Nat (List Nat) :=
  (connect emptyOS pushCb).1

/-- End-to-end scenario: the handle returned by connect. -/
def e2eH1 : Nat :=
  (connect (emptyOS (α := Nat) (σ := List Nat)) pushCb).2

/-- End-to-end scenario: log after `notify(42)`. -/
def e2eLog1 : List Nat :=
  e2eW1.subj.notify 42 []

/-- End-to-end scenario: world after `disconnect(h1)`. -/
def e2eW2 : OwnerSubject Nat (List Nat) :=
  disconnect e2eW1 e2eH1

/-- End-to-end scenario: log after the second `notify(7)`. -/
def e2eLog2 : List Nat :=
  e2eW2.subj.notify 7 e2eLog1

/-- Duplicate-connect scenario: the same callback connected twice, then the
first handle disconnected. -/
def dupW3 : OwnerSubject Nat (List Nat) :=
  disconnect (connect (connect emptyOS pushCb).1 pushCb).1 0

end Dispatch

section DispatchClaims

open Dispatch

/-- C2: for any sequence of connects to one subject followed by notify, every
connected callback is invoked exactly once with the published arguments, in
connection order (oldest first); the handle returned by connect is
immediately in the dispatch sequence and is invoked by every subsequent
notify. -/
theorem C2_notify_connection_order {α : Type u} {σ : Type v} :
    (∀ (cbs : List (Cb α σ)) (a : α) (st : σ),
        (connectAll cbs).subj.notify a st = cbs.foldl (fun acc cb => cb a acc) st) ∧
    (∀ (n : Nat) (a : α),
        (logWorld (α := α) n).subj.notify a [] = (List.range n).map (fun i => (i, a))) ∧
    (∀ (w : OwnerSubject α σ) (cb : Cb α σ),
        (connect w cb).2 ∈ ((connect w cb).1).subj.ids) ∧
    (∀ (w : OwnerSubject α σ) (cb : Cb α σ) (a : α) (st : σ),
        ((connect w cb).1).subj.notify a st = cb a (w.subj.notify a st)) := by
  refine ⟨fun cbs a st => connectAll_notify cbs a st, fun n a => ?_, fun w cb => ?_, fun w cb a st => ?_⟩
  · rw [show (logWorld (α := α) n).subj = ⟨(logWorld (α := α) n).subj.m_observers⟩ from rfl,
      logWorld_obs]
    simpa using notify_map_logCb (List.range n) a []
  · simp [connect, Subject.add_observer, Subject.ids]
  · exact Subject.notify_append w.subj.m_observers (w.fresh, cb) a st

/-- C3: disconnect removes the handle from the subject's dispatch sequence
and from the owner's ownership set; a subsequent notify does not invoke its
callback while all other handles still fire, in order, with the published
argument.  The closed conjuncts are the end-to-end scenario: after connect,
notify(42) logs [42]; after disconnect, notify(7) leaves the log at [42]. -/
theorem C3_disconnect_removes {α : Type u} :
    (∀ (n i : Nat),
        (disconnect (logWorld (α := α) n) i).subj.ids =
          (List.range n).filter (fun j => j != i) ∧
        (disconnect (logWorld (α := α) n) i).owned =
          (List.range n).filter (fun j => j != i)) ∧
    (∀ (n i : Nat) (a : α),
        (disconnect (logWorld (α := α) n) i).subj.notify a [] =
          ((List.range n).filter (fun j => j != i)).map (fun j => (j, a))) ∧
    e2eLog1 = [42] ∧ e2eLog2 = [42] := by
  have hobs : ∀ (n i : Nat),
      (disconnect (logWorld (α := α) n) i).subj.m_observers =
        ((List.range n).filter (fun j => j != i)).map (fun j => (j, logCb j)) := by
    intro n i
    have hids : (logWorld (α := α) n).subj.ids.Nodup := by
      rw [show (logWorld (α := α) n).subj.ids =
            ((logWorld (α := α) n).subj.m_observers).map (fun ob => ob.1) from rfl,
        logWorld_obs, map_fst_map_pair]
      exact List.nodup_range n
    show ((logWorld (α := α) n).subj.remove_observer i).m_observers = _
    rw [remove_observer_eq_filter _ i hids]
    show ((logWorld (α := α) n).subj.m_observers).filter (fun ob => ob.1 != i) = _
    rw [logWorld_obs, filter_map_pair]
  refine ⟨fun n i => ⟨?_, ?_⟩, fun n i a => ?_, rfl, rfl⟩
  · rw [show (disconnect (logWorld (α := α) n) i).subj.ids =
        ((disconnect (logWorld (α := α) n) i).subj.m_observers).map (fun ob => ob.1) from rfl,
      hobs, map_fst_map_pair]
  · show eraseFirstWith (fun h => h == i) (logWorld (α := α) n).owned = _
    have howned : (logWorld (α := α) n).owned = List.range n := by
      have := (connectAll_fresh_owned_ids ((List.range n).map (logCb (α := α)))).2.1
      simpa [logWorld] using this
    rw [howned]
    exact eraseFirstWith_key_eq_filter (fun h : Nat => h)
      (by simpa using List.nodup_range n) i
  · rw [show (disconnect (logWorld (α := α) n) i).subj =
        ⟨(disconnect (logWorld (α := α) n) i).subj.m_observers⟩ from rfl, hobs]
    simpa using notify_map_logCb ((List.range n).filter (fun j => j != i)) a []

/-- C4: constructing a subject_blocker empties the subject's dispatch
sequence (notify is a no-op while blocked), destroying it restores the
pre-block sequence verbatim no matter what the subject's sequence became
during the block — so post-block notify behavior equals pre-block behavior,
and any registration performed during the block is lost. -/
theorem C4_blocker_roundtrip {α : Type u} {σ : Type v} :
    (∀ (s : Subject α σ) (a : α) (st : σ), ((blocker_ctor s).2).notify a st = st) ∧
    (∀ (s t : Subject α σ), blocker_dtor (blocker_ctor s).1 t = s) ∧
    (∀ (s : Subject α σ) (a : α) (st : σ),
        (blocker_dtor (blocker_ctor s).1 ((blocker_ctor s).2)).notify a st = s.notify a st) ∧
    (∀ (s : Subject α σ) (ob : Nat × Cb α σ),
        blocker_dtor (blocker_ctor s).1 (((blocker_ctor s).2).add_observer ob) = s) :=
  ⟨fun _ _ _ => rfl, fun _ _ => rfl, fun _ _ _ => rfl, fun _ _ => rfl⟩

/-- C5: when a handle is present in the dispatch sequence, remove_observer
removes exactly one entry — the most recently added occurrence, found by the
backward search — and preserves the relative order of the remaining entries;
consequently, connecting the same callback twice and disconnecting the first
handle leaves the second still firing on notify. -/
theorem C5_remove_most_recent {α : Type u} {σ : Type v} :
    (∀ (s : Subject α σ) (hid : Nat), hid ∈ s.ids →
        ∃ pre ob post, s.m_observers = pre ++ ob :: post ∧ ob.1 = hid ∧
          (∀ ob' ∈ post, ob'.1 ≠ hid) ∧
          (s.remove_observer hid).m_observers = pre ++ post) ∧
    dupW3.subj.notify 5 [] = [5] := by
  constructor
  · intro s hid hmem
    rcases List.mem_map.mp hmem with ⟨ob, hob, hob1⟩
    have hex : ∃ x ∈ s.m_observers.reverse, (x.1 == hid) = true :=
      ⟨ob, List.mem_reverse.mpr hob, by simp [hob1]⟩
    rcases eraseFirstWith_spec hex with ⟨l₁, x, l₂, hrev, hpx, hl₁, hE⟩
    refine ⟨l₂.reverse, x, l₁.reverse, ?_, by simpa using hpx, ?_, ?_⟩
    · have := congrArg List.reverse hrev
      rw [List.reverse_reverse] at this
      rw [this]
      simp
    · intro ob' hob'
      have := hl₁ ob' (List.mem_reverse.mp hob')
      simpa using this
    · show (eraseFirstWith (fun ob => ob.1 == hid) s.m_observers.reverse).reverse = _
      rw [hE]
      simp
  · rfl

/-- C6: a target whose declared arity n passes the bind-time check receives
exactly the leading n published arguments on notify, the trailing ones being
discarded; a target requiring more parameters than published fails the
bind-time check. -/
theorem C6_arity_truncation {ν : Type u} {σ : Type v} :
    (∀ (d : ν) (f : List ν → σ → σ) (args : List ν) (st : σ) (arity : Nat),
        arity_ok arity args.length →
          get_first_n d arity args = args.take arity ∧
          adapter_notify f arity d args st = f (args.take arity) st) ∧
    (∀ (args : List ν) (k : Nat), ¬ arity_ok (args.length + k + 1) args.length) := by
  constructor
  · intro d f args st arity h
    have ht : get_first_n d arity args = args.take arity := get_first_take d args arity h
    exact ⟨ht, by rw [adapter_notify, ht]⟩
  · intro args k
    simp [arity_ok]
    omega

/-- C6 witness: a three-argument subject with a one-argument target passes
only the first argument; a four-argument target is rejected. -/
theorem C6_arity_truncation_witness :
    arity_ok 1 ([10, 20, 30] : List Nat).length ∧
      get_first_n 0 1 [10, 20, 30] = [10] ∧
      ¬ arity_ok 4 ([10, 20, 30] : List Nat).length := by
  refine ⟨by decide, ?_, ?_⟩
  · exact (C6_arity_truncation.1 0 (fun l (st : List Nat) => l ++ st) [10, 20, 30] [] 1
      (by decide)).1
  · simpa using (C6_arity_truncation (σ := List Nat)).2 ([10, 20, 30] : List Nat) 0

/-- C5 witness: the decomposition at a concrete dispatch sequence holding the
handle. -/
theorem C5_remove_most_recent_witness :
    (0 : Nat) ∈ (Subject.ids ⟨[(0, pushCb)]⟩) ∧
      (∃ pre ob post, ([(0, pushCb)] : List (Nat × Cb Nat (List Nat))) = pre ++ ob :: post ∧
        ob.1 = 0 ∧ (∀ ob' ∈ post, ob'.1 ≠ 0) ∧
        ((Subject.remove_observer ⟨[(0, pushCb)]⟩ 0).m_observers = pre ++ post)) :=
  ⟨by simp [Subject.ids], C5_remove_most_recent.1 ⟨[(0, pushCb)]⟩ 0 (by simp [Subject.ids])⟩

/-- C7: connect(subjectA, subjectB) equals connecting the spec's verbatim
forwarding callback; after the relay, notify on A pushes the arguments
through every handler registered on B exactly once. -/
theorem C7_relay {α : Type u} {σ : Type v} :
    (∀ (w : OwnerSubject α σ) (s2 : Subject α σ),
        connect_subjects w s2 = connect w (spec_relay_target s2)) ∧
    (∀ (w : OwnerSubject α σ) (s2 : Subject α σ) (a : α) (st : σ),
        ((connect_subjects w s2).1).subj.notify a st = s2.notify a (w.subj.notify a st)) ∧
    (∀ (js : List Nat) (a : α),
        ((connect_subjects (emptyOS (α := α) (σ := List (Nat × α)))
            ⟨js.map (fun j => (j, logCb j))⟩).1).subj.notify a [] =
          js.map (fun j => (j, a))) := by
  refine ⟨fun _ _ => rfl, fun w s2 a st => ?_, fun js a => ?_⟩
  · exact Subject.notify_append w.subj.m_observers (w.fresh, relay_target s2) a st
  · rw [show ((connect_subjects (emptyOS (α := α) (σ := List (Nat × α)))
        ⟨js.map (fun j => (j, logCb j))⟩).1).subj.notify a [] =
        Subject.notify ⟨js.map (fun j => (j, logCb j))⟩ a
          (Subject.notify (⟨[]⟩ : Subject α (List (Nat × α))) a []) from
      Subject.notify_append [] _ a []]
    simpa using notify_map_logCb js a []

/-- C10: asking a subject to remove a handle absent from its dispatch
sequence is a silent no-op: the backward search's not-found branch performs
no erase and the sequence is unchanged. -/
theorem C10_remove_absent_noop {α : Type u} {σ : Type v}
    (s : Subject α σ) (hid : Nat) (h : hid ∉ s.ids) :
    s.remove_observer hid = s := by
  have hall : ∀ ob ∈ s.m_observers.reverse, ¬ (ob.1 == hid) = true := by
    intro ob hob hbe
    exact h (List.mem_map.mpr ⟨ob, List.mem_reverse.mp hob, by simpa using hbe⟩)
  show (⟨(eraseFirstWith (fun ob => ob.1 == hid) s.m_observers.reverse).reverse⟩ : Subject α σ) = s
  rw [eraseFirstWith_of_forall_not hall, List.reverse_reverse]

/-- C10 witness: removing an unknown handle from a concrete one-entry subject
leaves it unchanged. -/
theorem C10_remove_absent_noop_witness :
    (5 : Nat) ∉ (Subject.ids (⟨[(0, pushCb)]⟩ : Subject Nat (List Nat))) ∧
      Subject.remove_observer (⟨[(0, pushCb)]⟩ : Subject Nat (List Nat)) 5 = ⟨[(0, pushCb)]⟩ :=
  ⟨by simp [Subject.ids], C10_remove_absent_noop ⟨[(0, pushCb)]⟩ 5 (by simp [Subject.ids])⟩

end DispatchClaims

namespace Registry

theorem keys_updateDispatch (ss : List (Nat × List Nat)) (sid : Nat)
    (f : List Nat → List Nat) : keys (updateDispatch ss sid f) = keys ss := by
  induction ss with
  | nil => rfl
  | cons p ss ih =>
    by_cases hp : p.1 = sid
    · simp [updateDispatch, keys, hp] at ih ⊢
      exact ih
    · simp [updateDispatch, keys, hp] at ih ⊢
      exact ih

theorem mem_updateDispatch {ss : List (Nat × List Nat)} {sid : Nat}
    {f : List Nat → List Nat} {p : Nat × List Nat}
    (hp : p ∈ updateDispatch ss sid f) :
    ∃ q ∈ ss, (q.1 = sid ∧ p = (q.1, f q.2)) ∨ (q.1 ≠ sid ∧ p = q) := by
  rcases List.mem_map.mp hp with ⟨q, hq, hpq⟩
  by_cases h : q.1 = sid
  · exact ⟨q, hq, Or.inl ⟨h, by rw [← hpq]; simp [h]⟩⟩
  · exact ⟨q, hq, Or.inr ⟨h, by rw [← hpq]; simp [h]⟩⟩

theorem subjectRemove_sublist (l : List Nat) (hid : Nat) :
    (subjectRemove l hid).Sublist l := by
  have h := eraseFirstWith_sublist (fun x => x == hid) l.reverse
  have h' := List.Sublist.reverse h
  rwa [List.reverse_reverse] at h'

theorem subjectRemove_eq_filter {l : List Nat} (hnd : l.Nodup) (hid : Nat) :
    subjectRemove l hid = l.filter (fun x => x != hid) := by
  rw [subjectRemove,
    eraseFirstWith_key_eq_filter (fun x : Nat => x)
      (by simpa using List.nodup_reverse.mpr hnd) hid,
    ← List.filter_reverse, List.reverse_reverse]

theorem find?_key {ss : List (Nat × List Nat)} {sid : Nat}
    (hs : sid ∈ keys ss) :
    ∃ p, ss.find? (fun p => p.1 == sid) = some p ∧ p ∈ ss ∧ p.1 = sid := by
  induction ss with
  | nil => simp [keys] at hs
  | cons q ss ih =>
    by_cases hq : q.1 = sid
    · exact ⟨q, by simp [List.find?, hq], by simp, hq⟩
    · have hs' : sid ∈ keys ss := by
        rcases List.mem_cons.mp hs with h | h
        · exact absurd h.symm hq
        · exact h
      rcases ih hs' with ⟨p, hfind, hmem, hkey⟩
      have hq' : (q.1 == sid) = false := by simpa using hq
      exact ⟨p, by simp [List.find?, hq', hfind], by simp [hmem], hkey⟩

theorem dispatchOf_mem {w : World} {sid : Nat} (hs : sid ∈ keys w.subjects) :
    (sid, dispatchOf w sid) ∈ w.subjects := by
  rcases find?_key hs with ⟨p, hfind, hmem, hkey⟩
  have : dispatchOf w sid = p.2 := by
    simp [dispatchOf, hfind]
  rw [this, ← hkey]
  exact hmem

theorem lookupHandle_some {w : World} {hid : Nat} {e : Nat × Nat × Nat}
    (he : lookupHandle w hid = some e) : e ∈ w.handles ∧ e.1 = hid := by
  refine ⟨List.mem_of_find?_eq_some he, ?_⟩
  have := List.find?_some he
  simpa using this

theorem nodup_key_inj {β : Type u} (k : β → Nat) {l : List β}
    (hnd : (l.map k).Nodup) {x y : β} (hx : x ∈ l) (hy : y ∈ l)
    (h : k x = k y) : x = y := by
  induction l with
  | nil => simp at hx
  | cons e es ih =>
    simp only [List.map_cons, List.nodup_cons] at hnd
    rcases List.mem_cons.mp hx with rfl | hx' <;>
      rcases List.mem_cons.mp hy with rfl | hy'
    · rfl
    · exact absurd (h ▸ List.mem_map.mpr ⟨y, hy', rfl⟩) hnd.1
    · exact absurd (h ▸ List.mem_map.mpr ⟨x, hx', rfl⟩) hnd.1
    · exact ih hnd.2 hx' hy'

theorem handle_id_inj {w : World} (hnd : (hids w).Nodup)
    {e₁ e₂ : Nat × Nat × Nat} (h₁ : e₁ ∈ w.handles) (h₂ : e₂ ∈ w.handles)
    (heq : e₁.1 = e₂.1) : e₁ = e₂ :=
  nodup_key_inj (fun e : Nat × Nat × Nat => e.1) hnd h₁ h₂ heq

/-- Elementwise relation between a subjects table and a shrunk version of it:
identical subject, dispatch sequence a sublist of the old one. -/
def Shrink (p q : Nat × List Nat) : Prop :=
  q.1 = p.1 ∧ q.2.Sublist p.2

theorem shrink_refl (ss : List (Nat × List Nat)) : List.Forall₂ Shrink ss ss := by
  induction ss with
  | nil => exact List.Forall₂.nil
  | cons p ss ih => exact List.Forall₂.cons ⟨rfl, List.Sublist.refl _⟩ ih

theorem shrink_trans {a b c : List (Nat × List Nat)}
    (hab : List.Forall₂ Shrink a b) (hbc : List.Forall₂ Shrink b c) :
    List.Forall₂ Shrink a c := by
  induction hab generalizing c with
  | nil =>
    cases hbc
    exact List.Forall₂.nil
  | @cons p q a' b' hpq hab' ih =>
    cases hbc with
    | cons hqr hbc' =>
      exact List.Forall₂.cons ⟨hqr.1.trans hpq.1, hqr.2.trans hpq.2⟩ (ih hbc')

theorem shrink_mem_right {ss ss' : List (Nat × List Nat)}
    (hs : List.Forall₂ Shrink ss ss') {q : Nat × List Nat} (hq : q ∈ ss') :
    ∃ p ∈ ss, q.1 = p.1 ∧ q.2.Sublist p.2 := by
  induction hs with
  | nil => simp at hq
  | @cons p q' a' b' hpq hs' ih =>
    rcases List.mem_cons.mp hq with rfl | hq'
    · exact ⟨p, by simp, hpq.1, hpq.2⟩
    · rcases ih hq' with ⟨p', hp', h1, h2⟩
      exact ⟨p', by simp [hp'], h1, h2⟩

theorem shrink_keys {ss ss' : List (Nat × List Nat)}
    (hs : List.Forall₂ Shrink ss ss') : keys ss' = keys ss := by
  induction hs with
  | nil => rfl
  | @cons p q a' b' hpq hs' ih =>
    show q.1 :: keys b' = p.1 :: keys a'
    rw [ih, hpq.1]

theorem shrink_updateDispatch (ss : List (Nat × List Nat)) (sid : Nat)
    {f : List Nat → List Nat} (hf : ∀ l, (f l).Sublist l) :
    List.Forall₂ Shrink ss (updateDispatch ss sid f) := by
  induction ss with
  | nil => exact List.Forall₂.nil
  | cons p ss ih =>
    by_cases hp : p.1 = sid
    · exact List.Forall₂.cons ⟨by simp [hp], by simp [hp, hf p.2]⟩ ih
    · exact List.Forall₂.cons ⟨by simp [hp], by simp [hp]⟩ ih

theorem removeFromSubject_fields (w : World) (hid : Nat) :
    (removeFromSubject w hid).handles = w.handles ∧
      (removeFromSubject w hid).owners = w.owners ∧
      (removeFromSubject w hid).blockers = w.blockers ∧
      (removeFromSubject w hid).fresh = w.fresh ∧
      (removeFromSubject w hid).bfresh = w.bfresh ∧
      (removeFromSubject w hid).freed = w.freed ∧
      List.Forall₂ Shrink w.subjects (removeFromSubject w hid).subjects := by
  cases hl : lookupHandle w hid with
  | none =>
    have hw : removeFromSubject w hid = w := by simp [removeFromSubject, hl]
    rw [hw]
    exact ⟨rfl, rfl, rfl, rfl, rfl, rfl, shrink_refl _⟩
  | some e =>
    have hw : removeFromSubject w hid =
        { w with subjects := updateDispatch w.subjects e.2.2 (fun l => subjectRemove l hid) } := by
      simp [removeFromSubject, hl]
    rw [hw]
    exact ⟨rfl, rfl, rfl, rfl, rfl, rfl,
      shrink_updateDispatch _ _ (fun l => subjectRemove_sublist l hid)⟩

theorem foldl_removeFromSubject_fields (l : List Nat) (w : World) :
    ((l.foldl removeFromSubject w).handles = w.handles ∧
      (l.foldl removeFromSubject w).owners = w.owners ∧
      (l.foldl removeFromSubject w).blockers = w.blockers ∧
      (l.foldl removeFromSubject w).fresh = w.fresh ∧
      (l.foldl removeFromSubject w).bfresh = w.bfresh ∧
      (l.foldl removeFromSubject w).freed = w.freed) ∧
      List.Forall₂ Shrink w.subjects (l.foldl removeFromSubject w).subjects := by
  induction l generalizing w with
  | nil => exact ⟨⟨rfl, rfl, rfl, rfl, rfl, rfl⟩, shrink_refl _⟩
  | cons h t ih =>
    rcases removeFromSubject_fields w h with ⟨f1, f2, f3, f4, f5, f6, fs⟩
    rcases ih (removeFromSubject w h) with ⟨⟨g1, g2, g3, g4, g5, g6⟩, gs⟩
    refine ⟨⟨?_, ?_, ?_, ?_, ?_, ?_⟩, ?_⟩
    · rw [List.foldl_cons, g1, f1]
    · rw [List.foldl_cons, g2, f2]
    · rw [List.foldl_cons, g3, f3]
    · rw [List.foldl_cons, g4, f4]
    · rw [List.foldl_cons, g5, f5]
    · rw [List.foldl_cons, g6, f6]
    · rw [List.foldl_cons]
      exact shrink_trans fs gs

/-- Inductive well-formedness of a world: subject and handle identities are
unique; every handle identity in a dispatch sequence or in a blocker's saved
sequence belongs to a live handle homed at that subject; dispatch and saved
sequences have no duplicates; live handle identities are below the allocation
counter. -/
structure WF (w : World) : Prop where
  skeys : (keys w.subjects).Nodup
  hnodup : (hids w).Nodup
  live : ∀ p ∈ w.subjects, ∀ h ∈ p.2, ∃ e ∈ w.handles, e.1 = h ∧ e.2.2 = p.1
  blive : ∀ b ∈ w.blockers, ∀ h ∈ b.2.2, ∃ e ∈ w.handles, e.1 = h ∧ e.2.2 = b.2.1
  dnodup : ∀ p ∈ w.subjects, p.2.Nodup
  bnodup : ∀ b ∈ w.blockers, b.2.2.Nodup
  hbound : ∀ e ∈ w.handles, e.1 < w.fresh

theorem WF_of_shrink {w w' : World} (hwf : WF w)
    (hs : List.Forall₂ Shrink w.subjects w'.subjects)
    (hh : w'.handles = w.handles) (hb : w'.blockers = w.blockers)
    (hf : w'.fresh = w.fresh) : WF w' := by
  refine ⟨?_, ?_, ?_, ?_, ?_, ?_, ?_⟩
  · rw [shrink_keys hs]
    exact hwf.skeys
  · show ((w'.handles).map (fun e => e.1)).Nodup
    rw [hh]
    exact hwf.hnodup
  · intro p hp h hh'
    rcases shrink_mem_right hs hp with ⟨q, hq, hk, hsub⟩
    rcases hwf.live q hq h (hsub.subset hh') with ⟨e, he, he1, he2⟩
    exact ⟨e, by rw [hh]; exact he, he1, by rw [he2, ← hk]⟩
  · intro b hb' h hh'
    rw [hb] at hb'
    rcases hwf.blive b hb' h hh' with ⟨e, he, he1, he2⟩
    exact ⟨e, by rw [hh]; exact he, he1, he2⟩
  · intro p hp
    rcases shrink_mem_right hs hp with ⟨q, hq, _, hsub⟩
    exact hsub.nodup (hwf.dnodup q hq)
  · intro b hb'
    rw [hb] at hb'
    exact hwf.bnodup b hb'
  · intro e he
    rw [hh] at he
    rw [hf]
    exact hwf.hbound e he

theorem WF_removeFromSubject {w : World} (hwf : WF w) (hid : Nat) :
    WF (removeFromSubject w hid) := by
  rcases removeFromSubject_fields w hid with ⟨f1, _, f3, f4, _, _, fs⟩
  exact WF_of_shrink hwf fs f1 f3 f4

theorem WF_foldl_removeFromSubject {w : World} (hwf : WF w) (l : List Nat) :
    WF (l.foldl removeFromSubject w) := by
  rcases foldl_removeFromSubject_fields l w with ⟨⟨f1, _, f3, f4, _, _⟩, fs⟩
  exact WF_of_shrink hwf fs f1 f3 f4

theorem find?_key_unique {β : Type u} (k : β → Nat) {l : List β}
    (hnd : (l.map k).Nodup) {x : β} (hx : x ∈ l) :
    l.find? (fun y => k y == k x) = some x := by
  induction l with
  | nil => simp at hx
  | cons a t ih =>
    rcases List.mem_cons.mp hx with rfl | hx'
    · simp [List.find?]
    · simp only [List.map_cons, List.nodup_cons] at hnd
      have hne : ¬ k a = k x := fun h => hnd.1 (h ▸ List.mem_map.mpr ⟨x, hx', rfl⟩)
      have hb : (k a == k x) = false := by simpa using hne
      simp [List.find?, hb, ih hnd.2 hx']

theorem lookupHandle_of_mem {w : World} (hnd : (hids w).Nodup)
    {e : Nat × Nat × Nat} (he : e ∈ w.handles) : lookupHandle w e.1 = some e :=
  find?_key_unique (fun e : Nat × Nat × Nat => e.1) hnd he

theorem not_mem_dispatch_removeFromSubject {w : World} (hwf : WF w)
    {e : Nat × Nat × Nat} (he : e ∈ w.handles) :
    ∀ p ∈ (removeFromSubject w e.1).subjects, e.1 ∉ p.2 := by
  have hlk : lookupHandle w e.1 = some e := lookupHandle_of_mem hwf.hnodup he
  have hw : removeFromSubject w e.1 =
      { w with subjects := updateDispatch w.subjects e.2.2 (fun l => subjectRemove l e.1) } := by
    simp [removeFromSubject, hlk]
  rw [hw]
  intro p hp hmem
  rcases mem_updateDispatch
      (show p ∈ updateDispatch w.subjects e.2.2 (fun l => subjectRemove l e.1) from hp)
    with ⟨q, hq, hcase⟩
  rcases hcase with ⟨hk, rfl⟩ | ⟨hk, hpq⟩
  · have hm : e.1 ∈ subjectRemove q.2 e.1 := hmem
    rw [subjectRemove_eq_filter (hwf.dnodup q hq) e.1] at hm
    have := (List.mem_filter.mp hm).2
    simp at this
  · rw [hpq] at hmem
    rcases hwf.live q hq e.1 hmem with ⟨e', he', he'1, he'2⟩
    have heq : e' = e := handle_id_inj hwf.hnodup he' he he'1
    rw [heq] at he'2
    exact hk he'2.symm

theorem foldl_removeFromSubject_not_mem {l : List Nat} {w : World} (hwf : WF w)
    (hl : ∀ h ∈ l, ∃ e ∈ w.handles, e.1 = h) :
    ∀ h ∈ l, ∀ p ∈ (l.foldl removeFromSubject w).subjects, h ∉ p.2 := by
  induction l generalizing w with
  | nil =>
    intro h hh
    simp at hh
  | cons h1 t ih =>
    intro h hh p hp hmem
    rw [List.foldl_cons] at hp
    have hwf1 : WF (removeFromSubject w h1) := WF_removeFromSubject hwf h1
    rcases List.mem_cons.mp hh with rfl | hh'
    · rcases hl h (by simp) with ⟨e, he, he1⟩
      have hnm : ∀ p' ∈ (removeFromSubject w h).subjects, h ∉ p'.2 := by
        have := not_mem_dispatch_removeFromSubject hwf he
        rwa [he1] at this
      rcases shrink_mem_right (foldl_removeFromSubject_fields t (removeFromSubject w h)).2 hp
        with ⟨q, hq, _, hsub⟩
      exact hnm q hq (hsub.subset hmem)
    · have hl1 : ∀ h' ∈ t, ∃ e ∈ (removeFromSubject w h1).handles, e.1 = h' := by
        intro h' hh''
        rcases hl h' (by simp [hh'']) with ⟨e, he, he1⟩
        exact ⟨e, by rw [(removeFromSubject_fields w h1).1]; exact he, he1⟩
      exact ih hwf1 hl1 h hh' p hp hmem

theorem foldl_erase_sublist (l : List Nat) (hs0 : List (Nat × Nat × Nat)) :
    (l.foldl (fun hs h => eraseFirstWith (fun e => e.1 == h) hs) hs0).Sublist hs0 := by
  induction l generalizing hs0 with
  | nil => exact List.Sublist.refl _
  | cons a t ih =>
    rw [List.foldl_cons]
    exact (ih _).trans (eraseFirstWith_sublist _ hs0)

theorem mem_foldl_erase {l : List Nat} {hs0 : List (Nat × Nat × Nat)}
    {e : Nat × Nat × Nat} (he : e ∈ hs0) (hne : e.1 ∉ l) :
    e ∈ l.foldl (fun hs h => eraseFirstWith (fun e => e.1 == h) hs) hs0 := by
  induction l generalizing hs0 with
  | nil => exact he
  | cons a t ih =>
    rw [List.foldl_cons]
    have hna : ¬ (e.1 == a) = true := by
      simp only [List.mem_cons] at hne
      simpa using fun h => hne (Or.inl h)
    exact ih (mem_eraseFirstWith_of_not he hna) (fun h => hne (List.mem_cons.mpr (Or.inr h)))

theorem WF_connectW {w : World} (hwf : WF w) (oid sid : Nat) :
    WF (connectW w oid sid).1 := by
  refine ⟨?_, ?_, ?_, ?_, ?_, ?_, ?_⟩
  · show (keys (updateDispatch w.subjects sid (fun l => l ++ [w.fresh]))).Nodup
    rw [keys_updateDispatch]
    exact hwf.skeys
  · show ((w.handles ++ [(w.fresh, oid, sid)]).map (fun e => e.1)).Nodup
    rw [List.map_append]
    refine List.Nodup.append hwf.hnodup (List.nodup_singleton _) ?_
    intro a ha hb
    rcases List.mem_map.mp ha with ⟨e, he, rfl⟩
    have hb' : e.1 = w.fresh := by simpa using hb
    exact absurd hb' (Nat.ne_of_lt (hwf.hbound e he))
  · intro p hp h hh
    rcases mem_updateDispatch
        (show p ∈ updateDispatch w.subjects sid (fun l => l ++ [w.fresh]) from hp)
      with ⟨q, hq, hcase⟩
    rcases hcase with ⟨hk, rfl⟩ | ⟨hk, hpq⟩
    · rcases List.mem_append.mp hh with hh' | hh'
      · rcases hwf.live q hq h hh' with ⟨e, he, he1, he2⟩
        exact ⟨e, List.mem_append_left _ he, he1, he2⟩
      · have hhf : h = w.fresh := by simpa using hh'
        subst hhf
        exact ⟨(w.fresh, oid, sid), List.mem_append_right _ (by simp), rfl, by simp [hk]⟩
    · rw [hpq] at hh ⊢
      rcases hwf.live q hq h hh with ⟨e, he, he1, he2⟩
      exact ⟨e, List.mem_append_left _ he, he1, he2⟩
  · intro b hb h hh
    rcases hwf.blive b hb h hh with ⟨e, he, he1, he2⟩
    exact ⟨e, List.mem_append_left _ he, he1, he2⟩
  · intro p hp
    rcases mem_updateDispatch
        (show p ∈ updateDispatch w.subjects sid (fun l => l ++ [w.fresh]) from hp)
      with ⟨q, hq, hcase⟩
    rcases hcase with ⟨hk, rfl⟩ | ⟨hk, hpq⟩
    · show (q.2 ++ [w.fresh]).Nodup
      refine List.Nodup.append (hwf.dnodup q hq) (List.nodup_singleton _) ?_
      intro a ha hb
      have hab : a = w.fresh := by simpa using hb
      rcases hwf.live q hq a ha with ⟨e, he, he1, _⟩
      have := hwf.hbound e he
      rw [he1] at this
      omega
    · rw [hpq]
      exact hwf.dnodup q hq
  · intro b hb
    exact hwf.bnodup b hb
  · intro e he
    show e.1 < w.fresh + 1
    rcases List.mem_append.mp (show e ∈ w.handles ++ [(w.fresh, oid, sid)] from he)
      with he' | he'
    · exact Nat.lt_trans (hwf.hbound e he') (Nat.lt_succ_self _)
    · have : e = (w.fresh, oid, sid) := by simpa using he'
      rw [this]
      exact Nat.lt_succ_self _

theorem WF_disconnectW {w : World} (hwf : WF w) {hid : Nat} {e : Nat × Nat × Nat}
    (he : lookupHandle w hid = some e) (hnb : w.blockers = []) :
    WF (disconnectW w hid) := by
  rcases lookupHandle_some he with ⟨hmem, hid_eq⟩
  have hwf1 : WF (removeFromSubject w hid) := WF_removeFromSubject hwf hid
  rcases removeFromSubject_fields w hid with ⟨f1, _, f3, f4, _, _, _⟩
  have hnm : ∀ p ∈ (removeFromSubject w hid).subjects, hid ∉ p.2 := by
    have := not_mem_dispatch_removeFromSubject hwf hmem
    rwa [hid_eq] at this
  refine ⟨hwf1.skeys, ?_, ?_, ?_, hwf1.dnodup, ?_, ?_⟩
  · show ((eraseFirstWith (fun e' => e'.1 == hid) (removeFromSubject w hid).handles).map
      (fun e' => e'.1)).Nodup
    exact (((eraseFirstWith_sublist _ _).map (fun e' : Nat × Nat × Nat => e'.1)).nodup)
      hwf1.hnodup
  · intro p hp h hh
    rcases hwf1.live p hp h hh with ⟨e', he', he'1, he'2⟩
    have hne : ¬ (e'.1 == hid) = true := by
      simp only [beq_iff_eq, he'1]
      intro hcontra
      exact hnm p hp (hcontra ▸ hh)
    exact ⟨e', mem_eraseFirstWith_of_not he' hne, he'1, he'2⟩
  · intro b hb
    rw [show (disconnectW w hid).blockers = w.blockers from f3] at hb
    rw [hnb] at hb
    simp at hb
  · intro b hb
    rw [show (disconnectW w hid).blockers = w.blockers from f3] at hb
    rw [hnb] at hb
    simp at hb
  · intro e' he'
    exact hwf1.hbound e' (mem_of_mem_eraseFirstWith he')

theorem ownedBy_live {w : World} (oid : Nat) :
    ∀ h ∈ ownedBy w oid, ∃ e ∈ w.handles, e.1 = h := by
  intro h hh
  rcases List.mem_map.mp hh with ⟨e, he, rfl⟩
  exact ⟨e, List.mem_of_mem_filter he, rfl⟩

theorem WF_destroyOwnerW {w : World} (hwf : WF w) (oid : Nat)
    (hnb : w.blockers = []) : WF (destroyOwnerW w oid) := by
  have hwf1 : WF ((ownedBy w oid).foldl removeFromSubject w) :=
    WF_foldl_removeFromSubject hwf (ownedBy w oid)
  rcases foldl_removeFromSubject_fields (ownedBy w oid) w with ⟨⟨f1, _, f3, _, _, _⟩, _⟩
  have hnm := foldl_removeFromSubject_not_mem hwf (ownedBy_live oid)
  refine ⟨hwf1.skeys, ?_, ?_, ?_, hwf1.dnodup, ?_, ?_⟩
  · show ((((ownedBy w oid).foldl removeFromSubject w).handles.filter
      (fun e => e.2.1 != oid)).map (fun e => e.1)).Nodup
    exact ((List.filter_sublist _).map (fun e : Nat × Nat × Nat => e.1)).nodup hwf1.hnodup
  · intro p hp h hh
    rcases hwf1.live p hp h hh with ⟨e, he, he1, he2⟩
    have hno : e.2.1 ≠ oid := by
      intro hcontra
      have hown : h ∈ ownedBy w oid := by
        rw [f1] at he
        exact List.mem_map.mpr ⟨e, List.mem_filter.mpr ⟨he, by simp [hcontra]⟩, he1⟩
      exact hnm h hown p hp hh
    exact ⟨e, List.mem_filter.mpr ⟨he, by simpa using hno⟩, he1, he2⟩
  · intro b hb
    rw [show (destroyOwnerW w oid).blockers =
      ((ownedBy w oid).foldl removeFromSubject w).blockers from rfl, f3, hnb] at hb
    simp at hb
  · intro b hb
    rw [show (destroyOwnerW w oid).blockers =
      ((ownedBy w oid).foldl removeFromSubject w).blockers from rfl, f3, hnb] at hb
    simp at hb
  · intro e he
    exact hwf1.hbound e (List.mem_of_mem_filter he)

theorem WF_destroySubjectW {w : World} (hwf : WF w) {sid : Nat}
    (hsk : sid ∈ keys w.subjects) (hnb : w.blockers = []) :
    WF (destroySubjectW w sid) := by
  have hdm : (sid, dispatchOf w sid) ∈ w.subjects := dispatchOf_mem hsk
  refine ⟨?_, ?_, ?_, ?_, ?_, ?_, ?_⟩
  · show (keys (w.subjects.filter (fun p => p.1 != sid))).Nodup
    exact ((List.filter_sublist _).map (fun p : Nat × List Nat => p.1)).nodup hwf.skeys
  · show (((dispatchOf w sid).foldl
      (fun hs h => eraseFirstWith (fun e => e.1 == h) hs) w.handles).map
      (fun e => e.1)).Nodup
    exact ((foldl_erase_sublist _ _).map (fun e : Nat × Nat × Nat => e.1)).nodup hwf.hnodup
  · intro p hp h hh
    have hp' := List.mem_filter.mp
      (show p ∈ w.subjects.filter (fun p => p.1 != sid) from hp)
    have hpk : p.1 ≠ sid := by simpa using hp'.2
    rcases hwf.live p hp'.1 h hh with ⟨e, he, he1, he2⟩
    have hne : e.1 ∉ dispatchOf w sid := by
      intro hcontra
      rcases hwf.live (sid, dispatchOf w sid) hdm e.1 hcontra with ⟨e2, he2', he2'1, he2'2⟩
      have : e2 = e := handle_id_inj hwf.hnodup he2' he he2'1
      rw [this] at he2'2
      exact hpk (by rw [← he2, he2'2])
    exact ⟨e, mem_foldl_erase he hne, he1, he2⟩
  · intro b hb
    rw [show (destroySubjectW w sid).blockers = w.blockers from rfl, hnb] at hb
    simp at hb
  · intro p hp
    exact hwf.dnodup p (List.mem_of_mem_filter hp)
  · intro b hb
    rw [show (destroySubjectW w sid).blockers = w.blockers from rfl, hnb] at hb
    simp at hb
  · intro e he
    exact hwf.hbound e ((foldl_erase_sublist _ _).subset he)

theorem WF_blockW {w : World} (hwf : WF w) {sid : Nat}
    (hsk : sid ∈ keys w.subjects) : WF (blockW w sid) := by
  have hdm : (sid, dispatchOf w sid) ∈ w.subjects := dispatchOf_mem hsk
  refine ⟨?_, hwf.hnodup, ?_, ?_, ?_, ?_, hwf.hbound⟩
  · show (keys (updateDispatch w.subjects sid (fun _ => []))).Nodup
    rw [keys_updateDispatch]
    exact hwf.skeys
  · intro p hp h hh
    rcases mem_updateDispatch
        (show p ∈ updateDispatch w.subjects sid (fun _ => ([] : List Nat)) from hp)
      with ⟨q, hq, hcase⟩
    rcases hcase with ⟨hk, rfl⟩ | ⟨hk, hpq⟩
    · simp at hh
    · rw [hpq] at hh ⊢
      exact hwf.live q hq h hh
  · intro b hb h hh
    rcases List.mem_cons.mp
        (show b ∈ (w.bfresh, sid, dispatchOf w sid) :: w.blockers from hb)
      with rfl | hb'
    · rcases hwf.live (sid, dispatchOf w sid) hdm h hh with ⟨e, he, he1, he2⟩
      exact ⟨e, he, he1, he2⟩
    · exact hwf.blive b hb' h hh
  · intro p hp
    rcases mem_updateDispatch
        (show p ∈ updateDispatch w.subjects sid (fun _ => ([] : List Nat)) from hp)
      with ⟨q, hq, hcase⟩
    rcases hcase with ⟨hk, rfl⟩ | ⟨hk, hpq⟩
    · exact List.nodup_nil
    · rw [hpq]
      exact hwf.dnodup q hq
  · intro b hb
    rcases List.mem_cons.mp
        (show b ∈ (w.bfresh, sid, dispatchOf w sid) :: w.blockers from hb)
      with rfl | hb'
    · exact hwf.dnodup (sid, dispatchOf w sid) hdm
    · exact hwf.bnodup b hb'

theorem WF_unblockW {w : World} (hwf : WF w) {bid : Nat} {b : Nat × Nat × List Nat}
    (hb : w.blockers.find? (fun b' => b'.1 == bid) = some b) :
    WF (unblockW w bid) := by
  have hbm : b ∈ w.blockers := List.mem_of_find?_eq_some hb
  have hw : unblockW w bid =
      { w with
          subjects := updateDispatch w.subjects b.2.1 (fun _ => b.2.2),
          blockers := eraseFirstWith (fun b' => b'.1 == bid) w.blockers } := by
    simp [unblockW, hb]
  rw [hw]
  refine ⟨?_, hwf.hnodup, ?_, ?_, ?_, ?_, hwf.hbound⟩
  · show (keys (updateDispatch w.subjects b.2.1 (fun _ => b.2.2))).Nodup
    rw [keys_updateDispatch]
    exact hwf.skeys
  · intro p hp h hh
    rcases mem_updateDispatch
        (show p ∈ updateDispatch w.subjects b.2.1 (fun _ => b.2.2) from hp)
      with ⟨q, hq, hcase⟩
    rcases hcase with ⟨hk, rfl⟩ | ⟨hk, hpq⟩
    · rcases hwf.blive b hbm h hh with ⟨e, he, he1, he2⟩
      exact ⟨e, he, he1, by rw [he2, ← hk]⟩
    · rw [hpq] at hh ⊢
      exact hwf.live q hq h hh
  · intro b' hb' h hh
    exact hwf.blive b' (mem_of_mem_eraseFirstWith hb') h hh
  · intro p hp
    rcases mem_updateDispatch
        (show p ∈ updateDispatch w.subjects b.2.1 (fun _ => b.2.2) from hp)
      with ⟨q, hq, hcase⟩
    rcases hcase with ⟨hk, rfl⟩ | ⟨hk, hpq⟩
    · exact hwf.bnodup b hbm
    · rw [hpq]
      exact hwf.dnodup q hq
  · intro b' hb'
    exact hwf.bnodup b' (mem_of_mem_eraseFirstWith hb')

theorem WF_safeStep {w w' : World} (hwf : WF w) (hs : SafeStep w w') : WF w' := by
  cases hs with
  | connect oid sid ho hsk => exact WF_connectW hwf oid sid
  | disconnect hid e he hsk hnb => exact WF_disconnectW hwf he hnb
  | notify sid hsk hl => exact hwf
  | destroyOwner oid ho hsb hnb => exact WF_destroyOwnerW hwf oid hnb
  | destroySubject sid hsk hl hnb => exact WF_destroySubjectW hwf hsk hnb
  | block sid hsk => exact WF_blockW hwf hsk
  | unblock bid b hb hsk => exact WF_unblockW hwf hb

theorem keys_map_pair (ss : List Nat) :
    keys (ss.map (fun s => (s, ([] : List Nat)))) = ss := by
  induction ss with
  | nil => rfl
  | cons s t ih =>
    show s :: keys (t.map (fun s => (s, ([] : List Nat)))) = s :: t
    rw [ih]

theorem WF_init (os ss : List Nat) (hnd : ss.Nodup) : WF (World.init os ss) := by
  refine ⟨?_, ?_, ?_, ?_, ?_, ?_, ?_⟩
  · show (keys (ss.map (fun s => (s, ([] : List Nat))))).Nodup
    rw [keys_map_pair]
    exact hnd
  · show (([] : List (Nat × Nat × Nat)).map (fun e => e.1)).Nodup
    exact List.nodup_nil
  · intro p hp h hh
    rcases List.mem_map.mp (show p ∈ ss.map (fun s => (s, ([] : List Nat))) from hp)
      with ⟨s, _, rfl⟩
    simp at hh
  · intro b hb
    simp [World.init] at hb
  · intro p hp
    rcases List.mem_map.mp (show p ∈ ss.map (fun s => (s, ([] : List Nat))) from hp)
      with ⟨s, _, rfl⟩
    exact List.nodup_nil
  · intro b hb
    simp [World.init] at hb
  · intro e he
    simp [World.init] at he

theorem Inv_of_WF {w : World} (hwf : WF w) : Inv w := by
  intro p hp h hh
  rcases hwf.live p hp h hh with ⟨e, he, he1, _⟩
  refine ⟨e.2.1, ?_⟩
  exact List.mem_map.mpr ⟨e, List.mem_filter.mpr ⟨he, by simp⟩, he1⟩

/-- One owner (0), one subject (0), after `n` connects. -/
def connectN : Nat → World
  | 0 => World.init [0] [0]
  | n + 1 => (connectW (connectN n) 0 0).1

theorem connectN_eq (n : Nat) :
    connectN n = ⟨[(0, List.range n)], [0],
      (List.range n).map (fun i => (i, 0, 0)), [], n, 0, []⟩ := by
  induction n with
  | zero => rfl
  | succ n ih =>
    show (connectW (connectN n) 0 0).1 = _
    rw [ih]
    simp [connectW, updateDispatch, List.range_succ]

theorem foldl_erase_map_ent (l : List Nat) :
    l.foldl (fun hs h => eraseFirstWith (fun e => e.1 == h) hs)
      (l.map (fun i => (i, 0, 0))) = [] := by
  induction l with
  | nil => rfl
  | cons a t ih =>
    rw [List.foldl_cons]
    have h1 : eraseFirstWith (fun e => e.1 == a) ((a :: t).map (fun i => (i, 0, 0))) =
        t.map (fun i => (i, 0, 0)) := by
      simp [eraseFirstWith]
    rw [h1]
    exact ih

theorem map_fst_map_ent (l : List Nat) :
    (l.map (fun i => (i, 0, 0))).map (fun e : Nat × Nat × Nat => e.1) = l := by
  induction l with
  | nil => rfl
  | cons a t ih => simp only [List.map_cons, ih]

theorem destroySubject_connectN (n : Nat) :
    destroySubjectW (connectN n) 0 = ⟨[], [0], [], [], n, 0, List.range n⟩ := by
  rw [connectN_eq]
  show World.mk
      (List.filter (fun p : Nat × List Nat => p.1 != 0) [(0, List.range n)])
      [0]
      ((List.range n).foldl (fun hs h => eraseFirstWith (fun e => e.1 == h) hs)
        ((List.range n).map (fun i => (i, 0, 0))))
      [] n 0 ([] ++ List.range n) = _
  rw [foldl_erase_map_ent]
  simp

theorem ownedBy_map_ent (l : List Nat) :
    ((l.map (fun i => (i, 0, 0))).filter
      (fun e : Nat × Nat × Nat => e.2.1 == 0)).map (fun e => e.1) = l := by
  induction l with
  | nil => rfl
  | cons a t ih =>
    have hstep : ((a :: t).map (fun i => (i, 0, 0))).filter
          (fun e : Nat × Nat × Nat => e.2.1 == 0) =
        (a, 0, 0) :: (t.map (fun i => (i, 0, 0))).filter
          (fun e : Nat × Nat × Nat => e.2.1 == 0) := rfl
    rw [hstep, List.map_cons, ih]

theorem filter_ent_not_owner (l : List Nat) :
    (l.map (fun i => (i, 0, 0))).filter (fun e : Nat × Nat × Nat => e.2.1 != 0) = [] := by
  induction l with
  | nil => rfl
  | cons a t ih =>
    have hstep : ((a :: t).map (fun i => (i, 0, 0))).filter
          (fun e : Nat × Nat × Nat => e.2.1 != 0) =
        (t.map (fun i => (i, 0, 0))).filter
          (fun e : Nat × Nat × Nat => e.2.1 != 0) := rfl
    rw [hstep]
    exact ih

theorem subjectRemove_cons_self {a : Nat} {t : List Nat} (hnd : (a :: t).Nodup) :
    subjectRemove (a :: t) a = t := by
  rw [subjectRemove_eq_filter hnd a]
  have ha : (a != a) = false := by simp
  rw [List.filter_cons]
  simp only [ha]
  apply List.filter_eq_self.mpr
  intro x hx
  have : x ≠ a := by
    intro hxa
    rw [List.nodup_cons] at hnd
    exact hnd.1 (hxa ▸ hx)
  simpa using this

theorem foldl_rfs_drain (l : List Nat) (w : World) (hnd : l.Nodup)
    (hsub : w.subjects = [(0, l)])
    (hlk : ∀ h ∈ l, lookupHandle w h = some (h, 0, 0)) :
    (l.foldl removeFromSubject w).subjects = [(0, [])] := by
  induction l generalizing w with
  | nil => simpa using hsub
  | cons a t ih =>
    rw [List.foldl_cons]
    have hlka : lookupHandle w a = some (a, 0, 0) := hlk a (by simp)
    have hw : removeFromSubject w a =
        { w with subjects := updateDispatch w.subjects 0 (fun l' => subjectRemove l' a) } := by
      simp [removeFromSubject, hlka]
    refine ih (removeFromSubject w a) (List.Nodup.of_cons hnd) ?_ ?_
    · rw [hw]
      show updateDispatch w.subjects 0 (fun l' => subjectRemove l' a) = [(0, t)]
      rw [hsub]
      show [(0, subjectRemove (a :: t) a)] = [(0, t)]
      rw [subjectRemove_cons_self hnd]
    · intro h hh
      rw [hw]
      show lookupHandle w h = some (h, 0, 0)
      exact hlk h (by simp [hh])

theorem lookup_map_ent {l : List Nat} {h : Nat} (hh : h ∈ l) (hnd : l.Nodup)
    {w : World} (hw : w.handles = l.map (fun i => (i, 0, 0))) :
    lookupHandle w h = some (h, 0, 0) := by
  have hmem : (h, 0, 0) ∈ w.handles := by
    rw [hw]
    exact List.mem_map.mpr ⟨h, hh, rfl⟩
  have hnd' : (hids w).Nodup := by
    show (w.handles.map (fun e => e.1)).Nodup
    rw [hw, map_fst_map_ent]
    exact hnd
  exact lookupHandle_of_mem hnd' hmem

theorem destroyOwner_connectN (n : Nat) :
    destroyOwnerW (connectN n) 0 = ⟨[(0, [])], [], [], [], n, 0, List.range n⟩ := by
  rw [connectN_eq]
  have howned : ownedBy ⟨[(0, List.range n)], [0],
      (List.range n).map (fun i => (i, 0, 0)), [], n, 0, []⟩ 0 = List.range n :=
    ownedBy_map_ent (List.range n)
  have hdrain : ((ownedBy ⟨[(0, List.range n)], [0],
      (List.range n).map (fun i => (i, 0, 0)), [], n, 0, []⟩ 0).foldl removeFromSubject
        ⟨[(0, List.range n)], [0], (List.range n).map (fun i => (i, 0, 0)), [], n, 0, []⟩).subjects
      = [(0, [])] := by
    rw [howned]
    apply foldl_rfs_drain (List.range n) _ (List.nodup_range n) rfl
    intro h hh
    exact lookup_map_ent hh (List.nodup_range n) rfl
  rcases foldl_removeFromSubject_fields (ownedBy ⟨[(0, List.range n)], [0],
      (List.range n).map (fun i => (i, 0, 0)), [], n, 0, []⟩ 0)
      ⟨[(0, List.range n)], [0], (List.range n).map (fun i => (i, 0, 0)), [], n, 0, []⟩
    with ⟨⟨g1, g2, g3, g4, g5, g6⟩, _⟩
  show World.mk _ _ _ _ _ _ _ = _
  rw [hdrain, g1, g2, g3, g4, g5, g6, howned]
  simp [eraseFirstWith, filter_ent_not_owner]

theorem destroySubject_after_owner (n : Nat) :
    destroySubjectW ⟨[(0, [])], [], [], [], n, 0, List.range n⟩ 0 =
      ⟨[], [], [], [], n, 0, List.range n⟩ := by
  have hd : dispatchOf ⟨[(0, [])], [], [], [], n, 0, List.range n⟩ 0 = [] := rfl
  simp [destroySubjectW, hd]

theorem destroyOwner_after_subject (n : Nat) :
    destroyOwnerW ⟨[], [0], [], [], n, 0, List.range n⟩ 0 =
      ⟨[], [], [], [], n, 0, List.range n⟩ := by
  have ho : ownedBy ⟨[], [0], [], [], n, 0, List.range n⟩ 0 = [] := rfl
  simp [destroyOwnerW, ho, eraseFirstWith]

end Registry

section RegistryClaims

open Registry

/-- C1: destruction-order independence for an owner and a subject with any
number of connections.  Destroying the subject first destroys every handle
still dispatched and leaves the surviving owner's ownership set empty;
destroying the owner first leaves the surviving subject's dispatch sequence
empty; in either order every handle is destroyed exactly once and the two
orders end in the same clean world. -/
theorem C1_destruction_order_independence (n : Nat) :
    destroyOwnerW (destroySubjectW (connectN n) 0) 0 =
      ⟨[], [], [], [], n, 0, List.range n⟩ ∧
    destroySubjectW (destroyOwnerW (connectN n) 0) 0 =
      ⟨[], [], [], [], n, 0, List.range n⟩ ∧
    ownedBy (destroySubjectW (connectN n) 0) 0 = [] ∧
    dispatchOf (destroyOwnerW (connectN n) 0) 0 = [] ∧
    (∀ h, h < n →
      (destroyOwnerW (destroySubjectW (connectN n) 0) 0).freed.count h = 1) ∧
    (∀ h, h < n →
      (destroySubjectW (destroyOwnerW (connectN n) 0) 0).freed.count h = 1) := by
  have hSO : destroyOwnerW (destroySubjectW (connectN n) 0) 0 =
      ⟨[], [], [], [], n, 0, List.range n⟩ := by
    rw [destroySubject_connectN, destroyOwner_after_subject]
  have hOS : destroySubjectW (destroyOwnerW (connectN n) 0) 0 =
      ⟨[], [], [], [], n, 0, List.range n⟩ := by
    rw [destroyOwner_connectN, destroySubject_after_owner]
  have hcount : ∀ h, h < n → (List.range n).count h = 1 := fun h hh =>
    List.count_eq_one_of_mem (List.nodup_range n) (List.mem_range.mpr hh)
  refine ⟨hSO, hOS, ?_, ?_, ?_, ?_⟩
  · rw [destroySubject_connectN]
    rfl
  · rw [destroyOwner_connectN]
    rfl
  · intro h hh
    rw [hSO]
    exact hcount h hh
  · intro h hh
    rw [hOS]
    exact hcount h hh

/-- C1 witness: two connections, destroyed in either order; handle 1 is
destroyed exactly once. -/
theorem C1_destruction_order_independence_witness :
    (1 : Nat) < 2 ∧
      (destroyOwnerW (destroySubjectW (connectN 2) 0) 0).freed.count 1 = 1 ∧
      (destroySubjectW (destroyOwnerW (connectN 2) 0) 0).freed.count 1 = 1 :=
  ⟨by decide, (C1_destruction_order_independence 2).2.2.2.2.1 1 (by decide),
    (C1_destruction_order_independence 2).2.2.2.2.2 1 (by decide)⟩

/-- C9 (amended): in every state reachable from an initial world through the
public operations — connect, disconnect, notify, blocker
construction/destruction, owner/subject destruction — provided no
handle-destroying operation (disconnect, owner destruction, subject
destruction) runs while a subject_blocker is alive, no live subject's
dispatch sequence contains a handle absent from every owner's ownership
set. -/
theorem C9_no_released_handle_in_dispatch (os ss : List Nat) (w : World)
    (hnd : ss.Nodup) (hr : SafeReachable (World.init os ss) w) : Inv w := by
  have hwf : WF w := by
    induction hr with
    | refl => exact WF_init os ss hnd
    | tail _ hstep ih => exact WF_safeStep ih hstep
  exact Inv_of_WF hwf

/-- C9 amended witness: the invariant after a connect step from a concrete
initial world. -/
theorem C9_no_released_handle_in_dispatch_witness :
    List.Nodup [0] ∧ Inv (connectW (World.init [0] [0]) 0 0).1 :=
  ⟨by decide,
    C9_no_released_handle_in_dispatch [0] [0] _ (by decide)
      (Relation.ReflTransGen.tail Relation.ReflTransGen.refl
        (SafeStep.connect (World.init [0] [0]) 0 0 (by decide) (by decide)))⟩

/-- C9 counterexample: the invariant as claimed — over all states reachable
through the public operations including blocker construction/destruction —
fails.  Connect a handle, construct a blocker (which swaps the dispatch
sequence out), disconnect the handle (destroying it; the subject-side erase
is a no-op on the swapped-out empty sequence), then destroy the blocker: the
restored dispatch sequence contains the destroyed handle, which no owner
owns.  Every step satisfies its defined-behavior preconditions. -/
theorem C9_blocker_reintroduces_released_handle :
    ¬ (∀ w : World, Reachable (World.init [0] [0]) w → Inv w) := by
  intro hclaim
  have h1 : Step (World.init [0] [0]) (connectW (World.init [0] [0]) 0 0).1 :=
    Step.connect (World.init [0] [0]) 0 0 (by decide) (by decide)
  have h2 : Step (connectW (World.init [0] [0]) 0 0).1
      (blockW (connectW (World.init [0] [0]) 0 0).1 0) :=
    Step.block (connectW (World.init [0] [0]) 0 0).1 0 (by decide)
  have h3 : Step (blockW (connectW (World.init [0] [0]) 0 0).1 0)
      (disconnectW (blockW (connectW (World.init [0] [0]) 0 0).1 0) 0) :=
    Step.disconnect (blockW (connectW (World.init [0] [0]) 0 0).1 0) 0 (0, 0, 0)
      (by decide) (by decide)
  have h4 : Step (disconnectW (blockW (connectW (World.init [0] [0]) 0 0).1 0) 0)
      (unblockW (disconnectW (blockW (connectW (World.init [0] [0]) 0 0).1 0) 0) 0) :=
    Step.unblock (disconnectW (blockW (connectW (World.init [0] [0]) 0 0).1 0) 0) 0
      (0, 0, [0]) (by decide) (by decide)
  have hreach : Reachable (World.init [0] [0])
      (unblockW (disconnectW (blockW (connectW (World.init [0] [0]) 0 0).1 0) 0) 0) :=
    Relation.ReflTransGen.tail
      (Relation.ReflTransGen.tail
        (Relation.ReflTransGen.tail
          (Relation.ReflTransGen.tail Relation.ReflTransGen.refl h1) h2) h3) h4
  have hinv := hclaim _ hreach
  have hfin : (unblockW (disconnectW (blockW (connectW (World.init [0] [0]) 0 0).1 0) 0) 0)
      = ⟨[(0, [0])], [0], [], [], 1, 1, [0]⟩ := by decide
  rw [hfin] at hinv
  rcases hinv (0, [0]) (by decide) 0 (by decide) with ⟨oid, hoid⟩
  simp [ownedBy] at hoid

end RegistryClaims

end PGObserver
